import Mathlib

/-!
Formal model of the quantum-circuit simulation core described by the
specification of this repository.  The source file (`src/00_qiskit.py`)
builds small circuits and executes them on two simulator backends
(`qasm_simulator` for shot sampling, `statevector_simulator` for
amplitude inspection); the simulation engine itself lives in the external
library, so the engine is modelled from the spec, while the concrete
circuits and scenarios are taken from the source file.

Conventions: a basis state of an `n`-qubit register is an assignment
`Fin n → Bool`; the integer index of an assignment is little-endian
(`basisIndex`), so index 0 is the all-zero assignment.  A classical
bitstring is a `List Bool` (bit `false` prints as "0", `true` as "1").
-/

noncomputable section

open Finset

/-- Modelled from the spec: the fixed numerical tolerance (1e-9) of the
state-vector engine's norm-preservation check; the engine is missing from
`src/`, which only invokes the external simulator. -/
def tol : ℝ := 1 / 10 ^ 9

/-- Modelled from the spec: a dense state vector of an `n`-qubit register,
one complex amplitude per basis assignment `Fin n → Bool`. -/
abbrev StateVec (n : ℕ) := (Fin n → Bool) → ℂ

/-- Little-endian integer index of a basis assignment: bit `i` of the
index is the value of qubit `i`. -/
def basisIndex {n : ℕ} (x : Fin n → Bool) : ℕ :=
  ∑ i : Fin n, if x i then 2 ^ (i : ℕ) else 0

/-- Modelled from the spec: `initialize(n)` — allocate the array, set the
amplitude of the all-zero basis state to 1 and all others to 0 (the
registers' default ground state).  The engine is missing from `src/`. -/
def initVec (n : ℕ) : StateVec n :=
  fun x => if x = (fun _ => false) then 1 else 0

/-- Modelled from the spec: the gate set consists of fixed small unitary
matrices on single qubits; a 2×2 complex matrix in row-major entries. -/
structure GateMatrix where
  u00 : ℂ
  u01 : ℂ
  u10 : ℂ
  u11 : ℂ

/-- A 2×2 matrix is unitary: the columns are orthonormal (the four
entries of `Uᴴ * U = 1`). -/
def IsUnitary (U : GateMatrix) : Prop :=
  (starRingEnd ℂ) U.u00 * U.u00 + (starRingEnd ℂ) U.u10 * U.u10 = 1 ∧
  (starRingEnd ℂ) U.u00 * U.u01 + (starRingEnd ℂ) U.u10 * U.u11 = 0 ∧
  (starRingEnd ℂ) U.u01 * U.u00 + (starRingEnd ℂ) U.u11 * U.u10 = 0 ∧
  (starRingEnd ℂ) U.u01 * U.u01 + (starRingEnd ℂ) U.u11 * U.u11 = 1

/-- Modelled from the spec: the tensor-contracted action of a one-qubit
gate matrix on target qubit `q`, leaving the other qubits' basis
combinations untouched. -/
def applyGate {n : ℕ} (U : GateMatrix) (q : Fin n) (v : StateVec n) : StateVec n :=
  fun x =>
    (if x q then U.u10 else U.u00) * v (Function.update x q false) +
    (if x q then U.u11 else U.u01) * v (Function.update x q true)

/-- Total squared magnitude of a state vector. -/
def normSq {n : ℕ} (v : StateVec n) : ℝ :=
  ∑ x : Fin n → Bool, Complex.normSq (v x)

/-- Modelled from the spec: error taxonomy of the simulation core. -/
inductive SimError where
  | RegisterSizeError
  | IndexOutOfRangeError
  | EmptyCircuitError
  | NonUnitaryOperatorError
  | ModeMismatchError
  | DegenerateStateError
deriving DecidableEq, Repr

/-- Modelled from the spec: `applyUnitary` — apply the gate and check that
the total squared magnitude stays within the fixed tolerance of 1; a
violation indicates a non-unitary gate matrix and fails with
`NonUnitaryOperatorError`. -/
def applyUnitary {n : ℕ} (U : GateMatrix) (q : Fin n) (v : StateVec n) :
    Except SimError (StateVec n) :=
  if |normSq (applyGate U q v) - 1| ≤ tol then .ok (applyGate U q v)
  else .error .NonUnitaryOperatorError

/-- Marginal probability that qubit `q` reads bit `b`: the sum of squared
magnitudes over all basis states whose `q`-th bit is `b`. -/
def prob {n : ℕ} (v : StateVec n) (q : Fin n) (b : Bool) : ℝ :=
  ∑ x : Fin n → Bool, if x q = b then Complex.normSq (v x) else 0

/-- Modelled from the spec: measurement collapse — zero all amplitudes
inconsistent with the observed outcome `b` on qubit `q` and renormalize
the remainder to unit norm. -/
def collapse {n : ℕ} (v : StateVec n) (q : Fin n) (b : Bool) : StateVec n :=
  fun x => if x q = b then v x / ((Real.sqrt (prob v q b) : ℝ) : ℂ) else 0

/-- Born-rule outcome for draw `r`: bit 0 (`false`) if `r` is below the
marginal probability of reading 0, else bit 1 (`true`). -/
def outcomeOf {n : ℕ} (v : StateVec n) (q : Fin n) (r : ℝ) : Bool :=
  if r < prob v q false then false else true

/-- Modelled from the spec: `sample(stateVector, qubitIndex, rng)` — the
Born rule with a supplied uniform draw `r` in `[0,1)`: outcome 0 if
`r < p0`, else 1; collapses the state; fails with `DegenerateStateError`
when the selected branch has zero norm. -/
def sample {n : ℕ} (v : StateVec n) (q : Fin n) (r : ℝ) :
    Except SimError (Bool × StateVec n) :=
  if prob v q (outcomeOf v q r) = 0 then .error .DegenerateStateError
  else .ok (outcomeOf v q r, collapse v q (outcomeOf v q r))

/-- Modelled from the spec: a circuit operation — a tagged variant over
unitary gate, measurement and identity, with register indices validated
at construction time (hence `Fin`-typed). -/
inductive Operation (n m : ℕ) where
  | gate (U : GateMatrix) (q : Fin n)
  | measureOp (q : Fin n) (c : Fin m)
  | identityOp (q : Fin n)

/-- Modelled from the spec: a circuit — its qubit register size, its
classical register size and an ordered operation list. -/
structure Circuit where
  nq : ℕ
  nc : ℕ
  ops : List (Operation nq nc)

/-- Per-trial execution state: the state vector, the classical bits, and
the position in the random-draw stream. -/
structure ExecState (n m : ℕ) where
  vec : StateVec n
  cbits : Fin m → Bool
  pos : ℕ

/-- Fresh trial state: ground-state vector, classical bits reset, stream
position carried over from the previous trial. -/
def initExec (n m : ℕ) (pos : ℕ) : ExecState n m :=
  ⟨initVec n, fun _ => false, pos⟩

/-- Modelled from the spec: execute one operation.  Gates go through the
norm-checked `applyUnitary`, identity is a no-op on amplitudes, and a
measurement samples with the next random draw, collapses the state and
records the outcome into the classical register. -/
def stepOp {n m : ℕ} (rng : ℕ → ℝ) (st : ExecState n m) :
    Operation n m → Except SimError (ExecState n m)
  | .gate U q =>
      match applyUnitary U q st.vec with
      | .ok v' => .ok ⟨v', st.cbits, st.pos⟩
      | .error e => .error e
  | .identityOp _ => .ok st
  | .measureOp q c =>
      match sample st.vec q (rng st.pos) with
      | .ok (b, v') => .ok ⟨v', Function.update st.cbits c b, st.pos + 1⟩
      | .error e => .error e

/-- Modelled from the spec: strict sequential fold of the operation list
over the execution state. -/
def execOps {n m : ℕ} (rng : ℕ → ℝ) :
    List (Operation n m) → ExecState n m → Except SimError (ExecState n m)
  | [], st => .ok st
  | op :: rest, st =>
      match stepOp rng st op with
      | .ok st' => execOps rng rest st'
      | .error e => .error e

/-- Classical bitstring read out of the classical register at trial end,
bit `c0` first. -/
def bitstring {m : ℕ} (cbits : Fin m → Bool) : List Bool :=
  (List.finRange m).map cbits

/-- Modelled from the spec: a `ResultSet` is either the per-trial outcome
record of a sampling run (the count of a key is its number of
occurrences) or the final state vector of a state-vector run. -/
inductive ResultSet (n : ℕ) where
  | counts (outcomes : List (List Bool))
  | statevec (v : StateVec n)

/-- Number of trials on which a sampling run produced the given
bitstring: the entry of the bitstring-to-count mapping at that key. -/
def countOf (outcomes : List (List Bool)) (key : List Bool) : ℕ :=
  @List.count (List Bool) instBEqOfDecidableEq key outcomes

/-- Modelled from the spec: execution mode, an explicit enumerated value
replacing the stringly-typed backend lookup. -/
inductive Mode where
  | sampling
  | statevector

/-- Modelled from the spec: run the operation list `shots` times, each
trial on a fresh ground-state vector and reset classical bits, the random
stream position advancing monotonically across trials; collect the
per-trial bitstrings. -/
def runTrials {n m : ℕ} (rng : ℕ → ℝ) (ops : List (Operation n m)) :
    ℕ → ℕ → Except SimError (List (List Bool))
  | 0, _ => .ok []
  | Nat.succ k, pos =>
      match execOps rng ops (initExec n m pos) with
      | .ok st =>
          match runTrials rng ops k st.pos with
          | .ok rest => .ok (bitstring st.cbits :: rest)
          | .error e => .error e
      | .error e => .error e

/-- Modelled from the spec: `run(circuit, mode, shots, rng)` with an
explicitly passed seeded random source (a stream of draws).  Sampling
mode aggregates `shots` trials; state-vector mode runs once and fails
with `EmptyCircuitError` on a circuit with zero operations. -/
def run (c : Circuit) (mode : Mode) (shots : ℕ) (rng : ℕ → ℝ) :
    Except SimError (ResultSet c.nq) :=
  match mode with
  | .sampling =>
      match runTrials rng c.ops shots 0 with
      | .ok outcomes => .ok (.counts outcomes)
      | .error e => .error e
  | .statevector =>
      match c.ops with
      | [] => .error .EmptyCircuitError
      | _ :: _ =>
          match execOps rng c.ops (initExec c.nq c.nc 0) with
          | .ok st => .ok (.statevec st.vec)
          | .error e => .error e

/-- Modelled from the spec: `getCounts()` — sampling mode only, otherwise
`ModeMismatchError`. -/
def getCounts {n : ℕ} : ResultSet n → Except SimError (List (List Bool))
  | .counts outcomes => .ok outcomes
  | .statevec _ => .error .ModeMismatchError

/-- Modelled from the spec: `getStateVector()` — state-vector mode only,
otherwise `ModeMismatchError`. -/
def getStateVector {n : ℕ} : ResultSet n → Except SimError (StateVec n)
  | .statevec v => .ok v
  | .counts _ => .error .ModeMismatchError

/-- Hadamard matrix entry `1 / sqrt 2` as a complex number. -/
def hEntry : ℂ := ((Real.sqrt 2)⁻¹ : ℝ)

/-- The Hadamard gate `(1/sqrt 2) [[1,1],[1,-1]]`, applied by
`circuit.h(q[0])` in the source. -/
def hGate : GateMatrix := ⟨hEntry, hEntry, hEntry, -hEntry⟩

/-- The identity gate matrix. -/
def idGate : GateMatrix := ⟨1, 0, 0, 1⟩

/-! ### General lemmas about the engine -/

/-- Summing over the two basis assignments of a single qubit. -/
lemma sum_fin1 {M : Type*} [AddCommMonoid M] (f : (Fin 1 → Bool) → M) :
    ∑ x : Fin 1 → Bool, f x = f (fun _ => false) + f (fun _ => true) := by
  rw [← Equiv.sum_comp (Equiv.funUnique (Fin 1) Bool).symm f, Fintype.sum_bool]
  rw [add_comm]
  rfl

/-- A basis assignment of a single qubit is all-false or all-true. -/
lemma fin1_eq_cases (x : Fin 1 → Bool) :
    x = (fun _ => false) ∨ x = (fun _ => true) := by
  cases h : x 0 with
  | false =>
      left; funext i
      have hi : i = 0 := Subsingleton.elim i 0
      subst hi; exact h
  | true =>
      right; funext i
      have hi : i = 0 := Subsingleton.elim i 0
      subst hi; exact h

/-- The ground state has unit total squared magnitude. -/
lemma normSq_initVec (n : ℕ) : normSq (initVec n) = 1 := by
  unfold normSq initVec
  simp [apply_ite Complex.normSq, Finset.sum_ite_eq']

/-- A unitary 2×2 matrix preserves the squared norm of a pair of
amplitudes. -/
lemma pair_norm (U : GateMatrix) (hU : IsUnitary U) (w0 w1 : ℂ) :
    Complex.normSq (U.u00 * w0 + U.u01 * w1) + Complex.normSq (U.u10 * w0 + U.u11 * w1)
      = Complex.normSq w0 + Complex.normSq w1 := by
  obtain ⟨h1, h2, h3, h4⟩ := hU
  have key : (U.u00 * w0 + U.u01 * w1) * (starRingEnd ℂ) (U.u00 * w0 + U.u01 * w1)
      + (U.u10 * w0 + U.u11 * w1) * (starRingEnd ℂ) (U.u10 * w0 + U.u11 * w1)
      = w0 * (starRingEnd ℂ) w0 + w1 * (starRingEnd ℂ) w1 := by
    simp only [map_add, map_mul]
    linear_combination (w0 * (starRingEnd ℂ) w0) * h1 + (w1 * (starRingEnd ℂ) w0) * h2
      + (w0 * (starRingEnd ℂ) w1) * h3 + (w1 * (starRingEnd ℂ) w1) * h4
  rw [Complex.mul_conj, Complex.mul_conj, Complex.mul_conj, Complex.mul_conj] at key
  exact_mod_cast key

/-- Evaluating the split equivalence at the split point. -/
lemma funSplitAt_symm_self {n : ℕ} (q : Fin n) (b : Bool)
    (rest : {j : Fin n // j ≠ q} → Bool) :
    (Equiv.funSplitAt q Bool).symm (b, rest) q = b := by
  simp [Equiv.funSplitAt, Equiv.piSplitAt]

/-- Updating the split point commutes with the split equivalence. -/
lemma update_funSplitAt_symm {n : ℕ} (q : Fin n) (b c : Bool)
    (rest : {j : Fin n // j ≠ q} → Bool) :
    Function.update ((Equiv.funSplitAt q Bool).symm (b, rest)) q c
      = (Equiv.funSplitAt q Bool).symm (c, rest) := by
  funext j
  by_cases h : j = q
  · subst h
    simp [Equiv.funSplitAt, Equiv.piSplitAt, Function.update]
  · simp [Equiv.funSplitAt, Equiv.piSplitAt, Function.update, h]

/-- Applying a unitary gate preserves the total squared magnitude. -/
lemma normSq_applyGate {n : ℕ} (U : GateMatrix) (hU : IsUnitary U) (q : Fin n)
    (v : StateVec n) : normSq (applyGate U q v) = normSq v := by
  unfold normSq
  rw [← Equiv.sum_comp (Equiv.funSplitAt q Bool).symm
        (fun x => Complex.normSq (applyGate U q v x)),
      ← Equiv.sum_comp (Equiv.funSplitAt q Bool).symm (fun x => Complex.normSq (v x)),
      Fintype.sum_prod_type, Fintype.sum_prod_type, Fintype.sum_bool, Fintype.sum_bool,
      ← Finset.sum_add_distrib, ← Finset.sum_add_distrib]
  apply Finset.sum_congr rfl
  intro rest _
  simp only [applyGate, funSplitAt_symm_self, update_funSplitAt_symm, if_true,
    Bool.false_eq_true, if_false]
  have h := pair_norm U hU (v ((Equiv.funSplitAt q Bool).symm (false, rest)))
    (v ((Equiv.funSplitAt q Bool).symm (true, rest)))
  linarith [h]

/-- Marginal probabilities are nonnegative. -/
lemma prob_nonneg {n : ℕ} (v : StateVec n) (q : Fin n) (b : Bool) :
    0 ≤ prob v q b := by
  unfold prob
  apply Finset.sum_nonneg
  intro x _
  by_cases h : x q = b
  · simp [h, Complex.normSq_nonneg]
  · simp [h]

/-- After collapsing onto outcome `b` of qubit `q`, the marginal
probability of `b` is 1 (the collapsed branch had nonzero norm). -/
lemma prob_collapse_self {n : ℕ} (v : StateVec n) (q : Fin n) (b : Bool)
    (hp : prob v q b ≠ 0) : prob (collapse v q b) q b = 1 := by
  have hnn := prob_nonneg v q b
  have hterm : ∀ x : Fin n → Bool,
      (if x q = b then Complex.normSq (collapse v q b x) else 0)
        = (if x q = b then Complex.normSq (v x) else 0) / prob v q b := by
    intro x
    by_cases h : x q = b
    · simp only [h, if_true, collapse]
      rw [Complex.normSq_div, Complex.normSq_ofReal, Real.mul_self_sqrt hnn]
    · simp [h]
  have hsum : prob (collapse v q b) q b
      = (∑ x : Fin n → Bool, if x q = b then Complex.normSq (v x) else 0)
          / prob v q b := by
    have hc : prob (collapse v q b) q b
        = ∑ x : Fin n → Bool,
            (if x q = b then Complex.normSq (v x) else 0) / prob v q b := by
      unfold prob
      exact Finset.sum_congr rfl fun x _ => hterm x
    rw [hc, ← Finset.sum_div]
  rw [hsum]
  exact div_self hp

/-- After collapsing onto outcome `b`, the opposite outcome has marginal
probability 0. -/
lemma prob_collapse_ne {n : ℕ} (v : StateVec n) (q : Fin n) (b b' : Bool)
    (hbb : b' ≠ b) : prob (collapse v q b) q b' = 0 := by
  unfold prob
  apply Finset.sum_eq_zero
  intro x _
  by_cases h : x q = b'
  · have hxb : ¬ x q = b := by rw [h]; exact hbb
    simp [h, collapse, hxb, hbb]
  · simp [h]

/-- The ground state reads 0 on every qubit with probability 1. -/
lemma prob_initVec_false {n : ℕ} (q : Fin n) : prob (initVec n) q false = 1 := by
  unfold prob initVec
  have h : ∀ x : Fin n → Bool,
      (if x q = false then Complex.normSq (if x = (fun _ => false) then (1 : ℂ) else 0) else 0)
        = if x = (fun _ => false) then 1 else 0 := by
    intro x
    by_cases hx : x = (fun _ => false)
    · subst hx; simp
    · simp [hx]
  rw [Finset.sum_congr rfl fun x _ => h x]
  simp [Finset.sum_ite_eq']

/-- Measuring any qubit of the ground state with a draw below 1 yields
outcome 0 and succeeds. -/
lemma sample_initVec {n : ℕ} (q : Fin n) (r : ℝ) (hr : r < 1) :
    sample (initVec n) q r = .ok (false, collapse (initVec n) q false) := by
  have hb : outcomeOf (initVec n) q r = false := by
    unfold outcomeOf
    rw [prob_initVec_false]
    exact if_pos hr
  unfold sample
  rw [hb, prob_initVec_false]
  norm_num

/-- The ground-state amplitude of the all-zero assignment is 1. -/
lemma initVec_all_false (n : ℕ) : initVec n (fun _ => false) = 1 := if_pos rfl

/-- The ground-state amplitude of any other assignment is 0. -/
lemma initVec_ne {n : ℕ} (x : Fin n → Bool) (h : x ≠ fun _ => false) :
    initVec n x = 0 := if_neg h

/-- The all-true and all-false assignments of one qubit differ. -/
lemma const_true_ne_const_false : (fun _ : Fin 1 => true) ≠ (fun _ => false) :=
  fun h => Bool.noConfusion (congrFun h 0)

/-- Updating a one-qubit assignment at qubit 0 yields a constant
assignment. -/
lemma update_fin1 (f : Fin 1 → Bool) (b : Bool) :
    Function.update f 0 b = (fun _ => b) := by
  funext i
  have hi : i = 0 := Subsingleton.elim i 0
  subst hi
  simp [Function.update]

/-- One execution step never reports an empty circuit. -/
lemma stepOp_no_empty {n m : ℕ} (rng : ℕ → ℝ) (st : ExecState n m)
    (op : Operation n m) :
    stepOp rng st op ≠ .error SimError.EmptyCircuitError := by
  cases op with
  | gate U q =>
      unfold stepOp applyUnitary
      by_cases h : |normSq (applyGate U q st.vec) - 1| ≤ tol
      · simp [h]
      · simp [h]
  | identityOp q => simp [stepOp]
  | measureOp q c =>
      unfold stepOp sample
      by_cases h : prob st.vec q (outcomeOf st.vec q (rng st.pos)) = 0
      · simp [h]
      · simp [h]

/-- Sequential execution never reports an empty circuit. -/
lemma execOps_no_empty {n m : ℕ} (rng : ℕ → ℝ) :
    ∀ (ops : List (Operation n m)) (st : ExecState n m),
      execOps rng ops st ≠ .error SimError.EmptyCircuitError := by
  intro ops
  induction ops with
  | nil => intro st h; cases h
  | cons op rest ih =>
      intro st
      cases hs : stepOp rng st op with
      | ok st' =>
          have : execOps rng (op :: rest) st = execOps rng rest st' := by
            rw [execOps, hs]
          rw [this]
          exact ih st'
      | error e =>
          have : execOps rng (op :: rest) st = .error e := by
            rw [execOps, hs]
          rw [this]
          intro h
          cases h
          exact stepOp_no_empty rng st op hs

/-- Executing a list of valid unitary gates succeeds and preserves the
unit norm. -/
lemma execOps_gates_norm {n m : ℕ} (rng : ℕ → ℝ) :
    ∀ ops : List (Operation n m),
      (∀ op ∈ ops, ∃ U q, op = Operation.gate U q ∧ IsUnitary U) →
      ∀ st : ExecState n m, normSq st.vec = 1 →
      ∃ st', execOps rng ops st = .ok st' ∧ normSq st'.vec = 1 := by
  intro ops
  induction ops with
  | nil => intro _ st hst; exact ⟨st, rfl, hst⟩
  | cons op rest ih =>
      intro hops st hst
      obtain ⟨U, q, rfl, hU⟩ := hops op (List.mem_cons_self op rest)
      have hnorm : normSq (applyGate U q st.vec) = 1 := by
        rw [normSq_applyGate U hU q st.vec, hst]
      have happ : applyUnitary U q st.vec = .ok (applyGate U q st.vec) := by
        unfold applyUnitary
        rw [if_pos (by rw [hnorm]; norm_num [tol])]
      obtain ⟨st', hex, hst'⟩ := ih (fun o ho => hops o (List.mem_cons_of_mem _ ho))
        ⟨applyGate U q st.vec, st.cbits, st.pos⟩ hnorm
      refine ⟨st', ?_, hst'⟩
      rw [execOps]
      simp only [stepOp, happ]
      exact hex

/-! ### Concrete circuits of the source file -/

/-- The scenario-A circuit of the source (src/00_qiskit.py lines 60-63):
one qubit, one classical bit, a single measurement and no gates. -/
def measCircuit : Circuit := ⟨1, 1, [Operation.measureOp 0 0]⟩

/-- The identity-only circuit of the source (src/00_qiskit.py lines
91-92): one qubit, one classical bit, `circuit.iden(q[0])`. -/
def idenCircuit : Circuit := ⟨1, 1, [Operation.identityOp 0]⟩

/-- The Hadamard circuit of the source (src/00_qiskit.py line 137):
one qubit, one classical bit, `circuit.h(q[0])`. -/
def hCircuit : Circuit := ⟨1, 1, [Operation.gate hGate 0]⟩

/-- Executing the measurement-only one-qubit circuit for one trial:
outcome 0 is recorded and one random draw is consumed. -/
lemma execOps_measCircuit (rng : ℕ → ℝ) (pos : ℕ) (hr : rng pos < 1) :
    execOps rng [Operation.measureOp (0 : Fin 1) (0 : Fin 1)] (initExec 1 1 pos)
      = .ok ⟨collapse (initVec 1) 0 false, fun _ => false, pos + 1⟩ := by
  have hs : sample (initVec 1) 0 (rng pos)
      = .ok (false, collapse (initVec 1) 0 false) := sample_initVec 0 (rng pos) hr
  rw [execOps]
  simp only [stepOp, initExec, hs]
  rw [execOps]
  rw [show Function.update (fun _ : Fin 1 => false) 0 false = (fun _ => false) from
    update_fin1 _ false]

/-- The classical readout of an all-zero one-bit register. -/
lemma bitstring_false : bitstring (fun _ : Fin 1 => false) = [false] := rfl

/-- Every trial of the measurement-only circuit yields the bitstring
"0", for any in-range random stream. -/
lemma runTrials_measCircuit (rng : ℕ → ℝ) (hr : ∀ i, rng i < 1) :
    ∀ shots pos : ℕ,
      runTrials rng [Operation.measureOp (0 : Fin 1) (0 : Fin 1)] shots pos
        = .ok (List.replicate shots [false]) := by
  intro shots
  induction shots with
  | zero => intro pos; rfl
  | succ k ih =>
      intro pos
      simp only [runTrials]
      rw [execOps_measCircuit rng pos (hr pos)]
      dsimp only
      rw [ih (pos + 1), bitstring_false]
      rfl

/-- Every trial contributes exactly one bitstring to the outcome
record. -/
lemma runTrials_length {n m : ℕ} (rng : ℕ → ℝ) (ops : List (Operation n m)) :
    ∀ (shots pos : ℕ) (o : List (List Bool)),
      runTrials rng ops shots pos = .ok o → o.length = shots := by
  intro shots
  induction shots with
  | zero =>
      intro pos o h
      cases h
      rfl
  | succ k ih =>
      intro pos o h
      simp only [runTrials] at h
      split at h
      · split at h
        · cases h
          next st rest hrt =>
            simp [ih _ _ hrt]
        · cases h
      · cases h

/-! ### The Hadamard gate and concrete gate evaluations -/

/-- Conjugating the real Hadamard entry is the identity. -/
lemma conj_hEntry : (starRingEnd ℂ) hEntry = hEntry := Complex.conj_ofReal _

/-- The squared Hadamard entry is one half. -/
lemma hEntry_mul_self : hEntry * hEntry = (((2 : ℝ))⁻¹ : ℂ) := by
  unfold hEntry
  rw [← Complex.ofReal_mul, ← mul_inv, Real.mul_self_sqrt (by norm_num : (0:ℝ) ≤ 2)]
  push_cast
  ring

/-- The Hadamard matrix is unitary. -/
lemma hGate_unitary : IsUnitary hGate := by
  refine ⟨?_, ?_, ?_, ?_⟩
  · simp only [hGate, conj_hEntry]
    rw [hEntry_mul_self]
    push_cast
    norm_num
  · simp only [hGate, conj_hEntry]
    ring
  · simp only [hGate, map_neg, conj_hEntry]
    ring
  · simp only [hGate, map_neg, conj_hEntry, neg_mul_neg]
    rw [hEntry_mul_self]
    push_cast
    norm_num

/-- One-qubit gate application evaluated pointwise. -/
lemma applyGate_fin1 (U : GateMatrix) (v : StateVec 1) (x : Fin 1 → Bool) :
    applyGate U 0 v x
      = (if x 0 then U.u10 else U.u00) * v (fun _ => false)
      + (if x 0 then U.u11 else U.u01) * v (fun _ => true) := by
  unfold applyGate
  rw [update_fin1, update_fin1]

/-- Hadamard on the one-qubit ground state: the uniform superposition. -/
lemma applyGate_hGate_initVec :
    applyGate hGate 0 (initVec 1) = fun _ => hEntry := by
  funext x
  rw [applyGate_fin1, initVec_all_false, initVec_ne _ const_true_ne_const_false]
  rcases fin1_eq_cases x with h | h <;> subst h <;> simp [hGate]

/-- The squared magnitude of the Hadamard entry is one half. -/
lemma normSq_hEntry : Complex.normSq hEntry = 2⁻¹ := by
  unfold hEntry
  rw [Complex.normSq_ofReal, ← mul_inv, Real.mul_self_sqrt (by norm_num : (0:ℝ) ≤ 2)]

/-- The uniform one-qubit superposition has unit norm. -/
lemma normSq_hVec : normSq (fun _ : Fin 1 → Bool => hEntry) = 1 := by
  unfold normSq
  rw [sum_fin1 (fun _ => Complex.normSq hEntry), normSq_hEntry]
  norm_num

/-- Executing the Hadamard-only circuit: the norm check passes and the
state becomes the uniform superposition. -/
lemma execOps_hCircuit (rng : ℕ → ℝ) (pos : ℕ) :
    execOps rng [Operation.gate hGate (0 : Fin 1)] (initExec 1 1 pos)
      = .ok ⟨fun _ => hEntry, fun _ => false, pos⟩ := by
  have happ : applyUnitary hGate 0 (initVec 1) = .ok (fun _ => hEntry) := by
    unfold applyUnitary
    rw [applyGate_hGate_initVec]
    rw [if_pos (by rw [normSq_hVec]; norm_num [tol])]
  rw [execOps]
  simp only [stepOp, initExec, happ]
  rw [execOps]

/-- A non-unitary matrix (twice the identity) used as a concrete
counter-input for the norm check. -/
def badGate : GateMatrix := ⟨2, 0, 0, 2⟩

/-- Applying the doubled identity to the ground state yields total
squared magnitude 4. -/
lemma normSq_applyGate_badGate :
    normSq (applyGate badGate 0 (initVec 1)) = 4 := by
  have happ : applyGate badGate 0 (initVec 1) = fun x => if x 0 then 0 else 2 := by
    funext x
    rw [applyGate_fin1, initVec_all_false, initVec_ne _ const_true_ne_const_false]
    rcases fin1_eq_cases x with h | h <;> subst h <;> simp [badGate]
  rw [happ]
  unfold normSq
  rw [sum_fin1 (fun x => Complex.normSq (if x 0 then (0 : ℂ) else 2))]
  norm_num [Complex.normSq_apply]

/-- The Hadamard amplitude is within 1e-3 of 0.707. -/
lemma hEntry_close : Complex.abs (hEntry - ((707 / 1000 : ℝ) : ℂ)) ≤ 1 / 1000 := by
  unfold hEntry
  rw [← Complex.ofReal_sub, Complex.abs_ofReal]
  have hs : Real.sqrt 2 * Real.sqrt 2 = 2 := Real.mul_self_sqrt (by norm_num)
  have hpos : 0 < Real.sqrt 2 := Real.sqrt_pos.mpr (by norm_num)
  have hub : Real.sqrt 2 ≤ 1.41422 := by
    nlinarith [sq_nonneg (Real.sqrt 2 - 1.41422)]
  have hlb : 1.41421 ≤ Real.sqrt 2 := by
    nlinarith [hs, hpos]
  have hinv : (Real.sqrt 2)⁻¹ = Real.sqrt 2 / 2 := by
    rw [inv_eq_one_div, div_eq_div_iff hpos.ne' (by norm_num : (2:ℝ) ≠ 0)]
    rw [one_mul, hs]
  rw [hinv, abs_le]
  constructor <;> linarith

/-- Executing the identity-only circuit leaves the trial state
unchanged. -/
lemma execOps_idenCircuit (rng : ℕ → ℝ) (pos : ℕ) :
    execOps rng [Operation.identityOp (0 : Fin 1)] (initExec 1 1 pos)
      = .ok (initExec 1 1 pos) := by
  rw [execOps]
  simp only [stepOp]
  rw [execOps]

/-! ### Claim theorems -/

/-- Claim C1: for every circuit composed only of valid unitary gates, the
total squared magnitude of the state vector stays within the fixed
tolerance of 1 after every gate application (every prefix of the
operation list executes successfully with norm within `tol` of 1); and
applying a matrix that does not preserve the norm within tolerance fails
with `NonUnitaryOperatorError`. -/
theorem norm_invariance :
    (∀ (c : Circuit) (rng : ℕ → ℝ),
        (∀ op ∈ c.ops, ∃ U q, op = Operation.gate U q ∧ IsUnitary U) →
        ∀ k : ℕ, ∃ st : ExecState c.nq c.nc,
          execOps rng (c.ops.take k) (initExec c.nq c.nc 0) = .ok st ∧
          |normSq st.vec - 1| ≤ tol) ∧
    (∀ (n : ℕ) (U : GateMatrix) (q : Fin n) (v : StateVec n),
        tol < |normSq (applyGate U q v) - 1| →
        applyUnitary U q v = .error SimError.NonUnitaryOperatorError) := by
  constructor
  · intro c rng hops k
    obtain ⟨st, hex, hst⟩ := execOps_gates_norm rng (c.ops.take k)
      (fun op ho => hops op (List.take_subset k c.ops ho))
      (initExec c.nq c.nc 0) (normSq_initVec c.nq)
    exact ⟨st, hex, by rw [hst]; norm_num [tol]⟩
  · intro n U q v h
    unfold applyUnitary
    rw [if_neg (not_le.mpr h)]

/-- Witness for C1: the Hadamard-only circuit keeps unit norm after its
gate, and the doubled identity (norm 4 on the ground state) fails with
`NonUnitaryOperatorError`. -/
theorem norm_invariance_witness :
    (∀ op ∈ hCircuit.ops, ∃ U q, op = Operation.gate U q ∧ IsUnitary U) ∧
    (∃ st : ExecState hCircuit.nq hCircuit.nc,
        execOps (fun _ => 0) (hCircuit.ops.take 1)
          (initExec hCircuit.nq hCircuit.nc 0) = .ok st ∧
        |normSq st.vec - 1| ≤ tol) ∧
    tol < |normSq (applyGate badGate 0 (initVec 1)) - 1| ∧
    applyUnitary badGate 0 (initVec 1) = .error SimError.NonUnitaryOperatorError := by
  have hops : ∀ op ∈ hCircuit.ops, ∃ U q, op = Operation.gate U q ∧ IsUnitary U := by
    intro op hop
    simp only [hCircuit, List.mem_singleton] at hop
    exact ⟨hGate, (0 : Fin 1), hop, hGate_unitary⟩
  have hbad : tol < |normSq (applyGate badGate 0 (initVec 1)) - 1| := by
    rw [normSq_applyGate_badGate]
    norm_num [tol]
  exact ⟨hops, norm_invariance.1 hCircuit (fun _ => 0) hops 1, hbad,
    norm_invariance.2 1 badGate 0 (initVec 1) hbad⟩

/-- Claim C2: for every n ≥ 1, the freshly initialized state vector has
amplitude 1 at index 0 (the all-zero basis state) and amplitude 0 at
every other index. -/
theorem init_ground_state (n : ℕ) (_hn : 1 ≤ n) (x : Fin n → Bool) :
    initVec n x = if basisIndex x = 0 then 1 else 0 := by
  have hiff : basisIndex x = 0 ↔ x = (fun _ => false) := by
    unfold basisIndex
    rw [Finset.sum_eq_zero_iff]
    constructor
    · intro h
      funext i
      have hi := h i (Finset.mem_univ i)
      cases hxi : x i with
      | false => rfl
      | true =>
          rw [if_pos hxi] at hi
          exact absurd hi (pow_ne_zero _ (by norm_num))
    · intro h i _
      rw [h]
      simp
  unfold initVec
  exact (if_congr hiff rfl rfl).symm

/-- Witness for C2 at n = 1, the all-zero assignment. -/
theorem init_ground_state_witness :
    1 ≤ 1 ∧ initVec 1 (fun _ => false)
      = if basisIndex (fun _ : Fin 1 => false) = 0 then 1 else 0 :=
  ⟨le_refl 1, init_ground_state 1 (le_refl 1) (fun _ => false)⟩

/-- Claim C3: the 1-qubit circuit with no gates and one measurement, run
in sampling mode with 100 shots on any in-range random stream, yields
the count mapping \x7b"0": 100\x7d — 100 at bitstring [false], 0 at every
other key. -/
theorem scenario_a (rng : ℕ → ℝ) (hr : ∀ i, rng i < 1) :
    run measCircuit .sampling 100 rng
      = .ok (.counts (List.replicate 100 [false])) ∧
    countOf (List.replicate 100 [false]) [false] = 100 ∧
    ∀ key : List Bool, key ≠ [false] →
      countOf (List.replicate 100 [false]) key = 0 := by
  refine ⟨?_, ?_, ?_⟩
  · simp only [run]
    rw [show measCircuit.ops = [Operation.measureOp (0 : Fin 1) (0 : Fin 1)] from rfl,
      runTrials_measCircuit rng hr 100 0]
  · unfold countOf
    exact @List.count_replicate_self (List Bool) instBEqOfDecidableEq inferInstance
      [false] 100
  · intro key hk
    unfold countOf
    exact @List.count_eq_zero_of_not_mem (List Bool) instBEqOfDecidableEq inferInstance
      key (List.replicate 100 [false])
      fun hmem => hk (List.eq_of_mem_replicate hmem)

/-- Witness for C3 with the constant-zero random stream. -/
theorem scenario_a_witness :
    (∀ i : ℕ, (fun _ : ℕ => (0:ℝ)) i < 1) ∧
    run measCircuit .sampling 100 (fun _ => 0)
      = .ok (.counts (List.replicate 100 [false])) := by
  have h : ∀ i : ℕ, (fun _ : ℕ => (0:ℝ)) i < 1 := fun i => by norm_num
  exact ⟨h, (scenario_a (fun _ => 0) h).1⟩

/-- Claim C4: the 1-qubit identity-only circuit in state-vector mode
returns the amplitude vector [1 + 0i, 0 + 0i]. -/
theorem scenario_b (shots : ℕ) (rng : ℕ → ℝ) :
    run idenCircuit .statevector shots rng = .ok (.statevec (initVec 1)) ∧
    initVec 1 (fun _ => false) = 1 ∧ initVec 1 (fun _ => true) = 0 :=
  ⟨rfl, initVec_all_false 1, initVec_ne _ const_true_ne_const_false⟩

/-- Claim C5: the 1-qubit Hadamard circuit in state-vector mode returns
an amplitude vector whose two components are within 1e-3 of 0.707 and
purely real. -/
theorem scenario_c (shots : ℕ) (rng : ℕ → ℝ) :
    ∃ v : StateVec 1,
      run hCircuit .statevector shots rng = .ok (.statevec v) ∧
      Complex.abs (v (fun _ => false) - ((707 / 1000 : ℝ) : ℂ)) ≤ 1 / 1000 ∧
      Complex.abs (v (fun _ => true) - ((707 / 1000 : ℝ) : ℂ)) ≤ 1 / 1000 ∧
      (v (fun _ => false)).im = 0 ∧ (v (fun _ => true)).im = 0 := by
  refine ⟨fun _ => hEntry, ?_, hEntry_close, hEntry_close,
    Complex.ofReal_im _, Complex.ofReal_im _⟩
  simp only [run, hCircuit]
  rw [execOps_hCircuit rng 0]

/-- Claim C6: a state-vector run fails with `EmptyCircuitError` exactly
when the circuit has zero operations, and the identity-only circuit runs
successfully. -/
theorem empty_circuit_iff :
    (∀ (c : Circuit) (shots : ℕ) (rng : ℕ → ℝ),
        run c .statevector shots rng = .error SimError.EmptyCircuitError ↔
        c.ops = []) ∧
    (∀ (shots : ℕ) (rng : ℕ → ℝ),
        run idenCircuit .statevector shots rng = .ok (.statevec (initVec 1))) := by
  constructor
  · intro c shots rng
    constructor
    · intro h
      cases hops : c.ops with
      | nil => rfl
      | cons op rest =>
          exfalso
          simp only [run] at h
          rw [hops] at h
          dsimp only at h
          split at h
          · cases h
          · next e heq =>
              cases h
              exact execOps_no_empty rng _ _ heq
    · intro h
      simp only [run]
      rw [h]
  · intro shots rng
    rfl

/-- Claim C7: after a measurement of qubit q observes outcome b, an
immediate second measurement of q returns b for every in-range draw. -/
theorem collapse_consistency {n : ℕ} (v : StateVec n) (q : Fin n) (r r' : ℝ)
    (b : Bool) (v' : StateVec n) (h1 : sample v q r = .ok (b, v'))
    (hr0 : 0 ≤ r') (hr1 : r' < 1) :
    sample v' q r' = .ok (b, collapse v' q b) := by
  unfold sample at h1
  by_cases hp : prob v q (outcomeOf v q r) = 0
  · rw [if_pos hp] at h1
    cases h1
  · rw [if_neg hp] at h1
    injection h1 with h1'
    injection h1' with hb hv
    rw [hb] at hp hv
    subst hv
    have p1 : prob (collapse v q b) q b = 1 := prob_collapse_self v q b hp
    cases b with
    | false =>
        have hout : outcomeOf (collapse v q false) q r' = false := by
          unfold outcomeOf
          rw [p1]
          exact if_pos hr1
        unfold sample
        rw [hout, p1]
        rw [if_neg one_ne_zero]
    | true =>
        have p0 : prob (collapse v q true) q false = 0 :=
          prob_collapse_ne v q true false (by simp)
        have hout : outcomeOf (collapse v q true) q r' = true := by
          unfold outcomeOf
          rw [p0]
          exact if_neg (not_lt.mpr hr0)
        unfold sample
        rw [hout, p1]
        rw [if_neg one_ne_zero]

/-- Witness for C7: measuring the one-qubit ground state twice with
draw 0 yields outcome 0 both times. -/
theorem collapse_consistency_witness :
    sample (initVec 1) 0 0 = .ok (false, collapse (initVec 1) 0 false) ∧
    (0:ℝ) ≤ 0 ∧ (0:ℝ) < 1 ∧
    sample (collapse (initVec 1) 0 false) 0 0
      = .ok (false, collapse (collapse (initVec 1) 0 false) 0 false) := by
  have h1 : sample (initVec 1) 0 (0:ℝ) = .ok (false, collapse (initVec 1) 0 false) :=
    sample_initVec 0 0 (by norm_num)
  exact ⟨h1, le_refl 0, by norm_num,
    collapse_consistency (initVec 1) 0 0 0 false _ h1 (le_refl 0) (by norm_num)⟩

/-- Claim C8: sampling-mode execution is deterministic in its explicit
inputs — two runs with identical circuit, shot count and seeded random
source produce identical count distributions. -/
theorem seed_determinism (c c' : Circuit) (shots shots' : ℕ)
    (rng rng' : ℕ → ℝ) (hc : c = c') (hs : shots = shots') (hr : rng = rng')
    (o o' : List (List Bool))
    (h : run c .sampling shots rng = .ok (.counts o))
    (h' : run c' .sampling shots' rng' = .ok (.counts o')) :
    o = o' ∧ ∀ key : List Bool, countOf o key = countOf o' key := by
  subst hc
  subst hs
  subst hr
  rw [h] at h'
  injection h' with h2
  injection h2 with h3
  subst h3
  exact ⟨rfl, fun _ => rfl⟩

/-- Witness for C8: two identical sampling runs of the measurement
circuit with the zero stream agree. -/
theorem seed_determinism_witness :
    run measCircuit .sampling 0 (fun _ => 0) = .ok (.counts []) ∧
    ([] : List (List Bool)) = [] := by
  have h : run measCircuit .sampling 0 (fun _ : ℕ => (0:ℝ)) = .ok (.counts []) := rfl
  exact ⟨h, (seed_determinism measCircuit measCircuit 0 0 (fun _ => 0) (fun _ => 0)
    rfl rfl rfl [] [] h h).1⟩

/-- Claim C9: `getCounts` succeeds and `getStateVector` fails with
`ModeMismatchError` on a sampling-mode result; symmetrically on a
state-vector-mode result. -/
theorem accessor_mode_mismatch :
    (∀ (c : Circuit) (shots : ℕ) (rng : ℕ → ℝ) (rs : ResultSet c.nq),
        run c .sampling shots rng = .ok rs →
        (∃ o, getCounts rs = .ok o) ∧
        getStateVector rs = .error SimError.ModeMismatchError) ∧
    (∀ (c : Circuit) (shots : ℕ) (rng : ℕ → ℝ) (rs : ResultSet c.nq),
        run c .statevector shots rng = .ok rs →
        (∃ v, getStateVector rs = .ok v) ∧
        getCounts rs = .error SimError.ModeMismatchError) := by
  constructor
  · intro c shots rng rs h
    simp only [run] at h
    split at h
    · next outcomes heq =>
        cases h
        exact ⟨⟨outcomes, rfl⟩, rfl⟩
    · cases h
  · intro c shots rng rs h
    simp only [run] at h
    split at h
    · cases h
    · split at h
      · next st heq =>
          cases h
          exact ⟨⟨st.vec, rfl⟩, rfl⟩
      · cases h

/-- Witness for C9: a concrete sampling result and a concrete
state-vector result, with both accessors evaluated. -/
theorem accessor_mode_mismatch_witness :
    run measCircuit .sampling 0 (fun _ => 0)
      = .ok (ResultSet.counts ([] : List (List Bool))) ∧
    (∃ o, getCounts (ResultSet.counts ([] : List (List Bool)) : ResultSet 1) = .ok o) ∧
    getStateVector (ResultSet.counts ([] : List (List Bool)) : ResultSet 1)
      = .error SimError.ModeMismatchError ∧
    run idenCircuit .statevector 1 (fun _ => 0) = .ok (.statevec (initVec 1)) ∧
    (∃ w, getStateVector (ResultSet.statevec (initVec 1)) = .ok w) ∧
    getCounts (ResultSet.statevec (initVec 1)) = .error SimError.ModeMismatchError := by
  have h1 : run measCircuit .sampling 0 (fun _ : ℕ => (0:ℝ))
      = .ok (ResultSet.counts ([] : List (List Bool))) := rfl
  have h2 : run idenCircuit .statevector 1 (fun _ : ℕ => (0:ℝ))
      = .ok (.statevec (initVec 1)) := rfl
  have ha := accessor_mode_mismatch.1 measCircuit 0 (fun _ => 0) _ h1
  have hb := accessor_mode_mismatch.2 idenCircuit 1 (fun _ => 0) _ h2
  exact ⟨h1, ha.1, ha.2, h2, hb.1, hb.2⟩

/-- Claim C10: in sampling mode with shots ≥ 1, the occurrence counts
over all bitstring keys of the returned mapping sum to the shot count. -/
theorem counts_sum_to_shots (c : Circuit) (shots : ℕ) (rng : ℕ → ℝ)
    (o : List (List Bool)) (_hsh : 1 ≤ shots)
    (h : run c .sampling shots rng = .ok (.counts o)) :
    ∑ key ∈ o.toFinset, countOf o key = shots := by
  have hlen : o.length = shots := by
    simp only [run] at h
    split at h
    · next outcomes heq =>
        cases h
        exact runTrials_length rng c.ops shots 0 o heq
    · cases h
  have hc : ∑ key ∈ o.toFinset, countOf o key = o.length := by
    unfold countOf
    exact List.sum_toFinset_count_eq_length o
  rw [hc, hlen]

/-- Witness for C10: one shot of the measurement circuit gives total
count 1. -/
theorem counts_sum_to_shots_witness :
    1 ≤ 1 ∧
    run measCircuit .sampling 1 (fun _ => 0)
      = .ok (.counts (List.replicate 1 [false])) ∧
    ∑ key ∈ (List.replicate 1 [false]).toFinset,
      countOf (List.replicate 1 [false]) key = 1 := by
  have h : run measCircuit .sampling 1 (fun _ : ℕ => (0:ℝ))
      = .ok (.counts (List.replicate 1 [false])) := by
    simp only [run]
    rw [show measCircuit.ops = [Operation.measureOp (0 : Fin 1) (0 : Fin 1)] from rfl,
      runTrials_measCircuit (fun _ => 0) (fun i => by norm_num) 1 0]
  exact ⟨le_refl 1, h,
    counts_sum_to_shots measCircuit 1 (fun _ => 0) _ (le_refl 1) h⟩

end
